import Mathlib

/-
Verification development for the model cache manager
(`src/ml-api/models.py`, class `ModelManager`).

Shallow embedding conventions:
* The Python dict `loaded_models` is an insertion-ordered association list
  `List (String × ModelInfo)`; assignment to a fresh key appends, assignment
  to a present key replaces in place, `del` removes the entry.
* `time.time()` is modelled by an explicit `now : Nat` argument supplied to
  each operation (the two consecutive `time.time()` calls inside a single
  load are identified, which no claim distinguishes).
* Filesystem and `joblib`/`json` effects are an environment of pure
  functions: `fileExists`/`deserialize` for `<name>.pkl` (deserialize
  returns `none` when `joblib.load` would raise), `metaExists`/`parseMeta`
  for `<name>_metadata.json` (`parseMeta` returns `none` when `json.load`
  would raise).
* Python's stable `sorted(..., key=lambda x: x[1]["last_accessed"])` is
  `List.insertionSort laLE`, which is a stable sort by the same key.
* `asyncio.Lock` acquisition structure is transcribed separately as event
  traces (`LockEv`), one trace per method, mirroring which statements of
  the source run inside `async with self._lock`.
-/

/-- Parsed sidecar metadata document (`<name>_metadata.json`); each field
mirrors one `metadata.get(...)` access in the source. -/
structure MetaDoc where
  version? : Option String
  mtype? : Option String
  input_shape? : Option Int
  output_shape? : Option Int
deriving DecidableEq

/-- The empty metadata document `{}` used when no sidecar file exists. -/
def MetaDoc.empty : MetaDoc := ⟨none, none, none, none⟩

/-- One value of `self.loaded_models[model_name]`: the dict built at
lines 67-77 of `models.py` (`mtype` embeds the `"type"` key, a Lean
keyword; the handle is opaque, modelled as a `Nat`). -/
structure ModelInfo where
  model : Nat
  loaded_at : Nat
  metadata : MetaDoc
  version : String
  mtype : String
  input_shape : Option Int
  output_shape : Option Int
  access_count : Nat
  last_accessed : Nat
deriving DecidableEq

/-- The filesystem/deserialization environment a load runs against. -/
structure Env where
  fileExists : String → Bool
  deserialize : String → Option Nat
  metaExists : String → Bool
  parseMeta : String → Option MetaDoc

/-- State of a `ModelManager` instance: `model_path`, `cache_size`
(a Python `int`, hence `Int`) and the insertion-ordered dict
`loaded_models`. -/
structure ModelManager where
  model_path : String
  cache_size : Int
  loaded_models : List (String × ModelInfo)
deriving DecidableEq

/-- `ModelManager.__init__` (lines 22-26): stores the arguments and starts
with an empty dict; the source performs no validation of `cache_size`. -/
def ModelManager.init (model_path : String) (cache_size : Int) : ModelManager :=
  { model_path := model_path, cache_size := cache_size, loaded_models := [] }

/-- Python dict key lookup on the association list. -/
def lookup : List (String × ModelInfo) → String → Option ModelInfo
  | [], _ => none
  | (k', v') :: rest, k => if k' = k then some v' else lookup rest k

/-- Python dict assignment `d[k] = v`: replace in place if the key is
present, append otherwise. -/
def dictInsert : List (String × ModelInfo) → String → ModelInfo → List (String × ModelInfo)
  | [], k, v => [(k, v)]
  | (k', v') :: rest, k, v =>
    if k' = k then (k, v) :: rest else (k', v') :: dictInsert rest k v

/-- Python dict deletion `del d[k]`: drop the entry with the given key. -/
def dictDelete : List (String × ModelInfo) → String → List (String × ModelInfo)
  | [], _ => []
  | (k', v') :: rest, k =>
    if k' = k then rest else (k', v') :: dictDelete rest k

/-- The key sequence of the dict, in insertion order. -/
def keys (l : List (String × ModelInfo)) : List String := l.map Prod.fst

/-- The sort key of `_manage_cache`: comparison of `last_accessed`. -/
def laLE (p q : String × ModelInfo) : Prop :=
  p.2.last_accessed ≤ q.2.last_accessed

instance : DecidableRel laLE := fun p q =>
  inferInstanceAs (Decidable (p.2.last_accessed ≤ q.2.last_accessed))

instance : IsTotal (String × ModelInfo) laLE :=
  ⟨fun p q => Nat.le_total p.2.last_accessed q.2.last_accessed⟩

instance : IsTrans (String × ModelInfo) laLE :=
  ⟨fun _ _ _ h₁ h₂ => Nat.le_trans h₁ h₂⟩

/-- Body of `ModelManager._manage_cache` (lines 121-137) on the dict: if the
resident count is within `cache_size` do nothing; otherwise stable-sort the
items by `last_accessed`, compute the surplus once, and delete that many
keys from the front of the sorted sequence. -/
def manage_cache_list (cache_size : Int) (models : List (String × ModelInfo)) :
    List (String × ModelInfo) :=
  if (models.length : Int) ≤ cache_size then models
  else
    let sorted_models := List.insertionSort laLE models
    let models_to_remove := ((models.length : Int) - cache_size).toNat
    (sorted_models.take models_to_remove).foldl (fun acc p => dictDelete acc p.1) models

/-- `ModelManager._manage_cache` as a state transformer. -/
def ModelManager.manage_cache (m : ModelManager) : ModelManager :=
  { m with loaded_models := manage_cache_list m.cache_size m.loaded_models }

/-- `ModelManager.load_model` (lines 42-87): already-present short-circuit,
missing-file failure, then `joblib.load`, optional `json.load` of the
sidecar, dict insertion and the eviction pass; any raising step inside the
`try` yields `(state unchanged, false)`. -/
def ModelManager.load_model (m : ModelManager) (env : Env) (model_name : String)
    (now : Nat) : ModelManager × Bool :=
  if (lookup m.loaded_models model_name).isSome then (m, true)
  else if env.fileExists model_name = false then (m, false)
  else
    match env.deserialize model_name with
    | none => (m, false)
    | some model =>
      match (if env.metaExists model_name then env.parseMeta model_name
             else some MetaDoc.empty) with
      | none => (m, false)
      | some metadata =>
        let info : ModelInfo :=
          { model := model
            loaded_at := now
            metadata := metadata
            version := metadata.version?.getD "unknown"
            mtype := metadata.mtype?.getD "unknown"
            input_shape := metadata.input_shape?
            output_shape := metadata.output_shape?
            access_count := 0
            last_accessed := now }
        let m' := { m with loaded_models := dictInsert m.loaded_models model_name info }
        (m'.manage_cache, true)

/-- `ModelManager.get_model` (lines 98-105): on a hit, bump `access_count`,
set `last_accessed` to now and return the record; on a miss return `none`. -/
def ModelManager.get_model (m : ModelManager) (model_name : String) (now : Nat) :
    ModelManager × Option ModelInfo :=
  match lookup m.loaded_models model_name with
  | some model_info =>
    let info' := { model_info with
      access_count := model_info.access_count + 1
      last_accessed := now }
    ({ m with loaded_models := dictInsert m.loaded_models model_name info' }, some info')
  | none => (m, none)

/-- `ModelManager.unload_model` (lines 89-96). -/
def ModelManager.unload_model (m : ModelManager) (model_name : String) :
    ModelManager × Bool :=
  if (lookup m.loaded_models model_name).isSome then
    ({ m with loaded_models := dictDelete m.loaded_models model_name }, true)
  else (m, false)

/-- `ModelManager.cleanup` (lines 139-143): clears the dict. -/
def ModelManager.cleanup (m : ModelManager) : ModelManager :=
  { m with loaded_models := [] }

/-- One public cache operation with its inputs. -/
inductive Op where
  | load (env : Env) (model_name : String) (now : Nat)
  | get (model_name : String) (now : Nat)
  | unload (model_name : String)
  | clear

/-- Apply one operation to the state (results discarded). -/
def exec (m : ModelManager) : Op → ModelManager
  | .load env model_name now => (m.load_model env model_name now).1
  | .get model_name now => (m.get_model model_name now).1
  | .unload model_name => (m.unload_model model_name).1
  | .clear => m.cleanup

/-- Run a sequence of operations from a state. -/
def run (m : ModelManager) (ops : List Op) : ModelManager := ops.foldl exec m

/-- State invariant maintained by the manager: non-negative capacity,
distinct dict keys, resident count within capacity. -/
def CacheInv (m : ModelManager) : Prop :=
  0 ≤ m.cache_size ∧ (keys m.loaded_models).Nodup ∧
    (m.loaded_models.length : Int) ≤ m.cache_size

/-- Lock-relevant events of one method execution: entering / leaving
`async with self._lock`, and a mutation of `self.loaded_models` or of a
record's stats fields. -/
inductive LockEv where
  | acquire
  | release
  | mutateState
deriving DecidableEq

/-- Event trace of `load_model` (lines 42-87): the whole body runs inside
`async with self._lock`; on the success path the dict insertion and the
eviction pass of `_manage_cache` mutate state while the lock is held. -/
def load_model_events (success : Bool) : List LockEv :=
  LockEv.acquire ::
    (if success then [LockEv.mutateState, LockEv.mutateState] else []) ++
    [LockEv.release]

/-- Event trace of `get_model` (lines 98-105): the method is not wrapped in
`async with self._lock`; on a hit it mutates `access_count` and
`last_accessed` with no acquire/release around it. -/
def get_model_events (present : Bool) : List LockEv :=
  if present then [LockEv.mutateState] else []

/-- Event trace of `unload_model` (lines 89-96): the body runs inside
`async with self._lock`; a present key is deleted under the lock. -/
def unload_model_events (present : Bool) : List LockEv :=
  LockEv.acquire ::
    (if present then [LockEv.mutateState] else []) ++ [LockEv.release]

/-- Event trace of `cleanup` (lines 139-143): clears the dict inside
`async with self._lock`. -/
def cleanup_events : List LockEv :=
  [LockEv.acquire, LockEv.mutateState, LockEv.release]

/-- Scan a trace with a lock-depth counter and check that every state
mutation happens at positive depth. -/
def mutationsLocked : Nat → List LockEv → Bool
  | _, [] => true
  | d, LockEv.acquire :: r => mutationsLocked (d + 1) r
  | d, LockEv.release :: r => mutationsLocked (d - 1) r
  | d, LockEv.mutateState :: r => decide (0 < d) && mutationsLocked d r

/-- Every state mutation of the trace occurs while the lock is held. -/
def underLock (evs : List LockEv) : Bool := mutationsLocked 0 evs

/-- A benign environment: every artifact file exists, deserializes to
handle `0`, and has no sidecar metadata file. -/
def envA : Env :=
  { fileExists := fun _ => true
    deserialize := fun _ => some 0
    metaExists := fun _ => false
    parseMeta := fun _ => none }

/-- An environment with no artifact files at all. -/
def envNoFile : Env :=
  { fileExists := fun _ => false
    deserialize := fun _ => none
    metaExists := fun _ => false
    parseMeta := fun _ => none }

/-- An environment whose artifact files exist but whose bytes fail to
deserialize (`joblib.load` raises). -/
def envCorrupt : Env :=
  { fileExists := fun _ => true
    deserialize := fun _ => none
    metaExists := fun _ => false
    parseMeta := fun _ => none }

/-- An environment whose artifacts load fine but whose sidecar metadata
files exist and fail to parse (`json.load` raises). -/
def envBadMeta : Env :=
  { fileExists := fun _ => true
    deserialize := fun _ => some 0
    metaExists := fun _ => true
    parseMeta := fun _ => none }

/-- The record a successful load inserts (lines 67-77): handle, load time,
metadata with defaults for missing fields, zero access count, and
`last_accessed` set to the load time. -/
def loadedInfo (model : Nat) (now : Nat) (md : MetaDoc) : ModelInfo :=
  { model := model
    loaded_at := now
    metadata := md
    version := md.version?.getD "unknown"
    mtype := md.mtype?.getD "unknown"
    input_shape := md.input_shape?
    output_shape := md.output_shape?
    access_count := 0
    last_accessed := now }

/-- The record as updated by a `get_model` hit (lines 102-103). -/
def bumped (info : ModelInfo) (now : Nat) : ModelInfo :=
  { info with access_count := info.access_count + 1, last_accessed := now }

/-- The record produced by a successful load against `envA` at time `t`. -/
def mkInfo (t : Nat) : ModelInfo :=
  { model := 0
    loaded_at := t
    metadata := MetaDoc.empty
    version := "unknown"
    mtype := "unknown"
    input_shape := none
    output_shape := none
    access_count := 0
    last_accessed := t }

/-- A capacity-2 run in which `"b"` and `"a"` are loaded with equal
timestamps (in that insertion order) and a third load forces one
eviction among the tied pair. -/
def tieOps : List Op :=
  [Op.load envA "b" 5, Op.load envA "a" 5, Op.load envA "c" 9]

theorem lookup_eq_none_iff (l : List (String × ModelInfo)) (k : String) :
    lookup l k = none ↔ k ∉ keys l := by
  induction l with
  | nil => simp [lookup, keys]
  | cons p rest ih =>
    obtain ⟨k', v'⟩ := p
    by_cases h : k' = k
    · subst h
      simp [lookup, keys]
    · have hk : ¬ k = k' := fun hh => h hh.symm
      simp [lookup, keys, h, hk, ih]

theorem lookup_isSome_iff (l : List (String × ModelInfo)) (k : String) :
    (lookup l k).isSome = true ↔ k ∈ keys l := by
  rw [Option.isSome_iff_ne_none]
  constructor
  · intro h
    by_contra hk
    exact h ((lookup_eq_none_iff l k).mpr hk)
  · intro h hnone
    exact (lookup_eq_none_iff l k).mp hnone h

theorem lookup_mem (l : List (String × ModelInfo)) (k : String) (v : ModelInfo)
    (h : lookup l k = some v) : (k, v) ∈ l := by
  induction l with
  | nil => simp [lookup] at h
  | cons p rest ih =>
    obtain ⟨k', v'⟩ := p
    by_cases hk : k' = k
    · simp [lookup, hk] at h
      subst hk h
      exact List.mem_cons_self _ _
    · simp [lookup, hk] at h
      exact List.mem_cons_of_mem _ (ih h)

theorem key_unique (l : List (String × ModelInfo)) (k : String) (a b : ModelInfo)
    (hnd : (keys l).Nodup) (ha : (k, a) ∈ l) (hb : (k, b) ∈ l) : a = b := by
  induction l with
  | nil => simp at ha
  | cons p rest ih =>
    simp only [keys, List.map_cons, List.nodup_cons] at hnd
    rcases List.mem_cons.mp ha with ha' | ha' <;>
      rcases List.mem_cons.mp hb with hb' | hb'
    · have h1 : a = p.2 := congrArg Prod.snd ha'
      have h2 : b = p.2 := congrArg Prod.snd hb'
      rw [h1, h2]
    · exfalso
      have hk : k = p.1 := congrArg Prod.fst ha'
      have hm : k ∈ List.map Prod.fst rest := List.mem_map.mpr ⟨(k, b), hb', rfl⟩
      rw [hk] at hm
      exact hnd.1 hm
    · exfalso
      have hk : k = p.1 := congrArg Prod.fst hb'
      have hm : k ∈ List.map Prod.fst rest := List.mem_map.mpr ⟨(k, a), ha', rfl⟩
      rw [hk] at hm
      exact hnd.1 hm
    · exact ih hnd.2 ha' hb'

theorem dictInsert_absent (l : List (String × ModelInfo)) (k : String) (v : ModelInfo)
    (h : k ∉ keys l) : dictInsert l k v = l ++ [(k, v)] := by
  induction l with
  | nil => rfl
  | cons p rest ih =>
    obtain ⟨k', v'⟩ := p
    simp only [keys, List.map_cons, List.mem_cons] at h
    push_neg at h
    have hk : ¬ k' = k := fun hh => h.1 hh.symm
    simp [dictInsert, hk, ih (by simpa [keys] using h.2)]

theorem lookup_dictInsert (l : List (String × ModelInfo)) (k : String) (v : ModelInfo) :
    lookup (dictInsert l k v) k = some v := by
  induction l with
  | nil => simp [dictInsert, lookup]
  | cons p rest ih =>
    obtain ⟨k', v'⟩ := p
    by_cases h : k' = k <;> simp [dictInsert, lookup, h, ih]

theorem keys_dictInsert_present (l : List (String × ModelInfo)) (k : String)
    (v : ModelInfo) (h : k ∈ keys l) : keys (dictInsert l k v) = keys l := by
  induction l with
  | nil => simp [keys] at h
  | cons p rest ih =>
    obtain ⟨k', v'⟩ := p
    by_cases hk : k' = k
    · simp [dictInsert, keys, hk]
    · simp only [keys, List.map_cons, List.mem_cons] at h
      rcases h with h | h
      · exact absurd h.symm hk
      · have h2 : k ∈ keys rest := by simpa [keys] using h
        have h3 := ih h2
        simp only [keys] at h3 ⊢
        simp [dictInsert, hk, h3]

theorem length_dictInsert_present (l : List (String × ModelInfo)) (k : String)
    (v : ModelInfo) (h : k ∈ keys l) : (dictInsert l k v).length = l.length := by
  have h1 : (keys (dictInsert l k v)).length = (keys l).length :=
    congrArg List.length (keys_dictInsert_present l k v h)
  simpa [keys] using h1

theorem keys_dictDelete (l : List (String × ModelInfo)) (k : String) :
    keys (dictDelete l k) = (keys l).erase k := by
  induction l with
  | nil => rfl
  | cons p rest ih =>
    obtain ⟨k', v'⟩ := p
    by_cases h : k' = k
    · simp [dictDelete, keys, h, List.erase_cons]
    · have ih' := ih
      simp only [keys] at ih'
      simp [dictDelete, keys, h, List.erase_cons, ih']

theorem dictDelete_absent (l : List (String × ModelInfo)) (k : String)
    (h : k ∉ keys l) : dictDelete l k = l := by
  induction l with
  | nil => rfl
  | cons p rest ih =>
    obtain ⟨k', v'⟩ := p
    simp only [keys, List.map_cons, List.mem_cons] at h
    push_neg at h
    have hk : ¬ k' = k := fun hh => h.1 hh.symm
    simp [dictDelete, hk, ih (by simpa [keys] using h.2)]

theorem length_dictDelete_present (l : List (String × ModelInfo)) (k : String)
    (h : k ∈ keys l) : (dictDelete l k).length + 1 = l.length := by
  have h1 := keys_dictDelete l k
  have h2 : (keys (dictDelete l k)).length = (keys l).length - 1 := by
    rw [h1]; exact List.length_erase_of_mem h
  have h3 : 1 ≤ (keys l).length := List.length_pos.mpr (List.ne_nil_of_mem h)
  have h4 : (dictDelete l k).length = (keys (dictDelete l k)).length := by simp [keys]
  have h5 : l.length = (keys l).length := by simp [keys]
  omega

theorem length_dictDelete_le (l : List (String × ModelInfo)) (k : String) :
    (dictDelete l k).length ≤ l.length := by
  by_cases h : k ∈ keys l
  · have := length_dictDelete_present l k h; omega
  · rw [dictDelete_absent l k h]

theorem mem_dictDelete_of_ne (l : List (String × ModelInfo)) (k : String)
    (q : String × ModelInfo) (hq : q ∈ l) (hne : q.1 ≠ k) : q ∈ dictDelete l k := by
  induction l with
  | nil => simp at hq
  | cons p rest ih =>
    obtain ⟨k', v'⟩ := p
    rcases List.mem_cons.mp hq with h | h
    · subst h
      simp only [dictDelete]
      rw [if_neg hne]
      exact List.mem_cons_self _ _
    · by_cases hk : k' = k
      · simpa [dictDelete, hk] using h
      · simp only [dictDelete]
        rw [if_neg hk]
        exact List.mem_cons_of_mem _ (ih h)

theorem dictDelete_subset (l : List (String × ModelInfo)) (k : String)
    (q : String × ModelInfo) (hq : q ∈ dictDelete l k) : q ∈ l := by
  induction l with
  | nil => simp [dictDelete] at hq
  | cons p rest ih =>
    obtain ⟨k', v'⟩ := p
    by_cases hk : k' = k
    · simp only [dictDelete] at hq
      rw [if_pos hk] at hq
      exact List.mem_cons_of_mem _ hq
    · simp only [dictDelete] at hq
      rw [if_neg hk] at hq
      rcases List.mem_cons.mp hq with h | h
      · exact h ▸ List.mem_cons_self _ _
      · exact List.mem_cons_of_mem _ (ih h)

theorem mem_keys_dictDelete_of_ne (l : List (String × ModelInfo)) (k k' : String)
    (hne : k' ≠ k) (h : k' ∈ keys l) : k' ∈ keys (dictDelete l k) := by
  obtain ⟨q, hq, hq1⟩ := List.mem_map.mp h
  exact List.mem_map.mpr ⟨q, mem_dictDelete_of_ne l k q hq (hq1 ▸ hne), hq1⟩

theorem nodup_keys_dictDelete (l : List (String × ModelInfo)) (k : String)
    (h : (keys l).Nodup) : (keys (dictDelete l k)).Nodup := by
  rw [keys_dictDelete]
  exact h.erase k

theorem dictDelete_append_of_mem (l₁ l₂ : List (String × ModelInfo)) (k : String)
    (h : k ∈ keys l₁) : dictDelete (l₁ ++ l₂) k = dictDelete l₁ k ++ l₂ := by
  induction l₁ with
  | nil => simp [keys] at h
  | cons p rest ih =>
    obtain ⟨k', v'⟩ := p
    by_cases hk : k' = k
    · simp [dictDelete, hk]
    · simp only [keys, List.map_cons, List.mem_cons] at h
      rcases h with h | h
      · exact absurd h.symm hk
      · simp [dictDelete, hk, ih (by simpa [keys] using h)]

theorem foldl_delete_fst (ps : List (String × ModelInfo)) (l : List (String × ModelInfo)) :
    ps.foldl (fun acc p => dictDelete acc p.1) l = (ps.map Prod.fst).foldl dictDelete l := by
  induction ps generalizing l with
  | nil => rfl
  | cons p rest ih => simp [List.foldl_cons, ih]

theorem foldl_dictDelete_length (names : List String) :
    ∀ l : List (String × ModelInfo), names.Nodup → (∀ k ∈ names, k ∈ keys l) →
      (names.foldl dictDelete l).length + names.length = l.length := by
  induction names with
  | nil => intro l _ _; simp
  | cons n ns ih =>
    intro l hnd hmem
    simp only [List.foldl_cons]
    have h1 : n ∈ keys l := hmem n (List.mem_cons_self _ _)
    have h2 : ∀ k ∈ ns, k ∈ keys (dictDelete l n) := by
      intro k hk
      have hne : k ≠ n := fun hh => (List.nodup_cons.mp hnd).1 (hh ▸ hk)
      exact mem_keys_dictDelete_of_ne l n k hne (hmem k (List.mem_cons_of_mem _ hk))
    have h3 := ih (dictDelete l n) (List.nodup_cons.mp hnd).2 h2
    have h4 := length_dictDelete_present l n h1
    simp only [List.length_cons]
    omega

theorem mem_foldl_dictDelete (names : List String) :
    ∀ (l : List (String × ModelInfo)) (q : String × ModelInfo),
      q ∈ l → q.1 ∉ names → q ∈ names.foldl dictDelete l := by
  induction names with
  | nil => intro l q hq _; simpa using hq
  | cons n ns ih =>
    intro l q hq hn
    simp only [List.mem_cons] at hn
    push_neg at hn
    exact ih _ q (mem_dictDelete_of_ne l n q hq hn.1) hn.2

theorem foldl_dictDelete_subset (names : List String) :
    ∀ (l : List (String × ModelInfo)) (q : String × ModelInfo),
      q ∈ names.foldl dictDelete l → q ∈ l := by
  induction names with
  | nil => intro l q h; simpa using h
  | cons n ns ih =>
    intro l q h
    exact dictDelete_subset l n q (ih _ q h)

theorem nodup_keys_foldl_dictDelete (names : List String) :
    ∀ l : List (String × ModelInfo),
      (keys l).Nodup → (keys (names.foldl dictDelete l)).Nodup := by
  induction names with
  | nil => intro l h; simpa using h
  | cons n ns ih => intro l h; exact ih _ (nodup_keys_dictDelete l n h)

theorem keys_foldl_dictDelete_subset (names : List String)
    (l : List (String × ModelInfo)) (k : String)
    (h : k ∈ keys (names.foldl dictDelete l)) : k ∈ keys l := by
  obtain ⟨q, hq, rfl⟩ := List.mem_map.mp h
  exact List.mem_map.mpr ⟨q, foldl_dictDelete_subset names l q hq, rfl⟩

theorem not_mem_keys_foldl_dictDelete (names : List String) :
    ∀ (l : List (String × ModelInfo)) (k : String),
      (keys l).Nodup → k ∈ names → k ∉ keys (names.foldl dictDelete l) := by
  induction names with
  | nil => intro l k _ hk; simp at hk
  | cons n ns ih =>
    intro l k hnd hk
    simp only [List.foldl_cons]
    rcases List.mem_cons.mp hk with h | h
    · subst h
      intro hmem
      have h1 : k ∉ keys (dictDelete l k) := by
        rw [keys_dictDelete]
        intro hin
        exact ((hnd.mem_erase_iff).mp hin).1 rfl
      exact h1 (keys_foldl_dictDelete_subset ns (dictDelete l k) k hmem)
    · exact ih (dictDelete l n) k (nodup_keys_dictDelete l n hnd) h

theorem manage_cache_list_of_le (c : Int) (l : List (String × ModelInfo))
    (h : (l.length : Int) ≤ c) : manage_cache_list c l = l := by
  unfold manage_cache_list
  rw [if_pos h]

theorem manage_cache_list_gt (c : Int) (l : List (String × ModelInfo))
    (h : ¬ (l.length : Int) ≤ c) :
    manage_cache_list c l =
      (((List.insertionSort laLE l).take ((l.length : Int) - c).toNat).map Prod.fst).foldl
        dictDelete l := by
  unfold manage_cache_list
  rw [if_neg h]
  exact foldl_delete_fst _ _

theorem take_sorted_keys_nodup (n : Nat) (l : List (String × ModelInfo))
    (hnd : (keys l).Nodup) :
    (((List.insertionSort laLE l).take n).map Prod.fst).Nodup := by
  have hperm : List.Perm (List.map Prod.fst (List.insertionSort laLE l)) (keys l) :=
    (List.perm_insertionSort laLE l).map Prod.fst
  have hnd2 : (List.map Prod.fst (List.insertionSort laLE l)).Nodup :=
    hperm.nodup_iff.mpr hnd
  exact hnd2.sublist ((List.take_sublist n _).map Prod.fst)

theorem take_sorted_keys_mem (n : Nat) (l : List (String × ModelInfo)) (k : String)
    (hk : k ∈ ((List.insertionSort laLE l).take n).map Prod.fst) : k ∈ keys l := by
  obtain ⟨q, hq, rfl⟩ := List.mem_map.mp hk
  have hq2 : q ∈ List.insertionSort laLE l := (List.take_sublist n _).subset hq
  have hq3 : q ∈ l := (List.perm_insertionSort laLE l).subset hq2
  exact List.mem_map.mpr ⟨q, hq3, rfl⟩

theorem take_sorted_keys_length (n : Nat) (l : List (String × ModelInfo))
    (hnl : n ≤ l.length) :
    (((List.insertionSort laLE l).take n).map Prod.fst).length = n := by
  simp only [List.length_map, List.length_take, List.length_insertionSort]
  omega

theorem manage_cache_list_length (c : Int) (l : List (String × ModelInfo))
    (hnd : (keys l).Nodup) (hc : 0 ≤ c) (h : c < (l.length : Int)) :
    ((manage_cache_list c l).length : Int) = c := by
  rw [manage_cache_list_gt c l (by omega)]
  have hnl : ((l.length : Int) - c).toNat ≤ l.length := by omega
  have f1 := take_sorted_keys_nodup ((l.length : Int) - c).toNat l hnd
  have f2 : ∀ k ∈ ((List.insertionSort laLE l).take ((l.length : Int) - c).toNat).map Prod.fst,
      k ∈ keys l := fun k hk => take_sorted_keys_mem _ l k hk
  have f3 := take_sorted_keys_length ((l.length : Int) - c).toNat l hnl
  have f4 := foldl_dictDelete_length _ l f1 f2
  omega

theorem manage_cache_list_le (c : Int) (l : List (String × ModelInfo))
    (hnd : (keys l).Nodup) (hc : 0 ≤ c) :
    ((manage_cache_list c l).length : Int) ≤ c := by
  by_cases h : (l.length : Int) ≤ c
  · rw [manage_cache_list_of_le c l h]; exact h
  · exact le_of_eq (manage_cache_list_length c l hnd hc (by omega))

theorem manage_cache_list_subset (c : Int) (l : List (String × ModelInfo))
    (q : String × ModelInfo) (hq : q ∈ manage_cache_list c l) : q ∈ l := by
  by_cases h : (l.length : Int) ≤ c
  · rwa [manage_cache_list_of_le c l h] at hq
  · rw [manage_cache_list_gt c l h] at hq
    exact foldl_dictDelete_subset _ l q hq

theorem manage_cache_list_keys_nodup (c : Int) (l : List (String × ModelInfo))
    (hnd : (keys l).Nodup) : (keys (manage_cache_list c l)).Nodup := by
  by_cases h : (l.length : Int) ≤ c
  · rwa [manage_cache_list_of_le c l h]
  · rw [manage_cache_list_gt c l h]
    exact nodup_keys_foldl_dictDelete _ l hnd

theorem manage_cache_list_lru (c : Int) (l : List (String × ModelInfo))
    (hnd : (keys l).Nodup) (h : c < (l.length : Int)) :
    ∀ p ∈ l, p ∉ manage_cache_list c l → ∀ q ∈ manage_cache_list c l,
      p.2.last_accessed ≤ q.2.last_accessed := by
  intro p hp hpn q hq
  rw [manage_cache_list_gt c l (by omega)] at hpn hq
  have hp1 : p.1 ∈ ((List.insertionSort laLE l).take ((l.length : Int) - c).toNat).map Prod.fst := by
    by_contra hcon
    exact hpn (mem_foldl_dictDelete _ l p hp hcon)
  have hq1 : q ∈ l := foldl_dictDelete_subset _ l q hq
  have hq2 : q.1 ∉ ((List.insertionSort laLE l).take ((l.length : Int) - c).toNat).map Prod.fst := by
    intro hcon
    exact not_mem_keys_foldl_dictDelete _ l q.1 hnd hcon (List.mem_map.mpr ⟨q, hq, rfl⟩)
  obtain ⟨p', hp', hp'1⟩ := List.mem_map.mp hp1
  have hp'l : p' ∈ l :=
    (List.perm_insertionSort laLE l).subset
      ((List.take_sublist ((l.length : Int) - c).toNat _).subset hp')
  have hmem1 : (p.1, p'.2) ∈ l := by
    rw [← hp'1]
    simpa using hp'l
  have hmem2 : (p.1, p.2) ∈ l := by simpa using hp
  have hsnd : p'.2 = p.2 := key_unique l p.1 p'.2 p.2 hnd hmem1 hmem2
  have hpp : p' = p := Prod.ext hp'1 hsnd
  rw [hpp] at hp'
  have hqsorted : q ∈ List.insertionSort laLE l :=
    (List.perm_insertionSort laLE l).mem_iff.mpr hq1
  have hqdrop : q ∈ (List.insertionSort laLE l).drop ((l.length : Int) - c).toNat := by
    have hsplit := List.take_append_drop ((l.length : Int) - c).toNat
      (List.insertionSort laLE l)
    rw [← hsplit] at hqsorted
    rcases List.mem_append.mp hqsorted with h1 | h1
    · exact absurd (List.mem_map.mpr ⟨q, h1, rfl⟩) hq2
    · exact h1
  have hsorted : List.Sorted laLE (List.insertionSort laLE l) :=
    List.sorted_insertionSort laLE l
  have hpair : List.Pairwise laLE
      ((List.insertionSort laLE l).take ((l.length : Int) - c).toNat ++
        (List.insertionSort laLE l).drop ((l.length : Int) - c).toNat) := by
    rwa [List.take_append_drop]
  exact (List.pairwise_append.mp hpair).2.2 p hp' q hqdrop


theorem load_model_present (m : ModelManager) (env : Env) (name : String) (now : Nat)
    (h : (lookup m.loaded_models name).isSome = true) :
    m.load_model env name now = (m, true) := by
  unfold ModelManager.load_model
  rw [if_pos h]

theorem load_model_fail (m : ModelManager) (env : Env) (name : String) (now : Nat)
    (habs : lookup m.loaded_models name = none)
    (hfail : env.fileExists name = false ∨ env.deserialize name = none ∨
      (env.metaExists name = true ∧ env.parseMeta name = none)) :
    m.load_model env name now = (m, false) := by
  unfold ModelManager.load_model
  rw [if_neg (by simp [habs])]
  by_cases hfe : env.fileExists name = false
  · rw [if_pos hfe]
  · rw [if_neg hfe]
    cases hdes : env.deserialize name with
    | none => rfl
    | some model =>
      rcases hfail with h | h | ⟨h1, h2⟩
      · exact absurd h hfe
      · rw [h] at hdes; cases hdes
      · simp [h1, h2]

theorem load_model_success (m : ModelManager) (env : Env) (name : String) (now : Nat)
    (md : MetaDoc) (model : Nat)
    (habs : lookup m.loaded_models name = none)
    (hfe : env.fileExists name = true)
    (hdes : env.deserialize name = some model)
    (hmeta : (if env.metaExists name then env.parseMeta name
              else some MetaDoc.empty) = some md) :
    m.load_model env name now =
      ({ m with loaded_models := manage_cache_list m.cache_size (dictInsert m.loaded_models name (loadedInfo model now md)) }, true) := by
  unfold ModelManager.load_model
  rw [if_neg (by simp [habs]), if_neg (by simp [hfe]), hdes, hmeta]
  rfl

theorem load_model_cases (m : ModelManager) (env : Env) (name : String) (now : Nat) :
    (m.load_model env name now).1 = m ∨
    (lookup m.loaded_models name = none ∧
      ∃ info : ModelInfo, info.access_count = 0 ∧ info.last_accessed = now ∧
        (m.load_model env name now).1 =
          { m with loaded_models :=
              manage_cache_list m.cache_size (dictInsert m.loaded_models name info) }) := by
  by_cases h1 : (lookup m.loaded_models name).isSome = true
  · left
    rw [load_model_present m env name now h1]
  · have habs : lookup m.loaded_models name = none :=
      Option.not_isSome_iff_eq_none.mp (by simpa using h1)
    by_cases hfe : env.fileExists name = true
    · cases hdes : env.deserialize name with
      | none =>
        left
        rw [load_model_fail m env name now habs (Or.inr (Or.inl hdes))]
      | some model =>
        cases hmeta : (if env.metaExists name then env.parseMeta name
                       else some MetaDoc.empty) with
        | none =>
          left
          have h2 : env.metaExists name = true ∧ env.parseMeta name = none := by
            by_cases hme : env.metaExists name = true
            · exact ⟨hme, by simpa [hme] using hmeta⟩
            · simp [hme] at hmeta
          rw [load_model_fail m env name now habs (Or.inr (Or.inr h2))]
        | some md =>
          right
          refine ⟨habs, loadedInfo model now md, rfl, rfl, ?_⟩
          rw [load_model_success m env name now md model habs hfe hdes hmeta]
    · left
      have hfe' : env.fileExists name = false := by
        cases h : env.fileExists name
        · rfl
        · exact absurd h hfe
      rw [load_model_fail m env name now habs (Or.inl hfe')]

theorem get_model_present (m : ModelManager) (name : String) (now : Nat)
    (info : ModelInfo) (h : lookup m.loaded_models name = some info) :
    m.get_model name now =
      ({ m with loaded_models := dictInsert m.loaded_models name (bumped info now) },
        some (bumped info now)) := by
  unfold ModelManager.get_model bumped
  rw [h]

theorem get_model_absent (m : ModelManager) (name : String) (now : Nat)
    (h : lookup m.loaded_models name = none) : m.get_model name now = (m, none) := by
  unfold ModelManager.get_model
  rw [h]

theorem load_model_cache_size (m : ModelManager) (env : Env) (name : String) (now : Nat) :
    ((m.load_model env name now).1).cache_size = m.cache_size := by
  rcases load_model_cases m env name now with h | ⟨_, info, _, _, h⟩
  · rw [h]
  · rw [h]

theorem exec_cache_size (m : ModelManager) (o : Op) :
    (exec m o).cache_size = m.cache_size := by
  cases o with
  | load env name now => exact load_model_cache_size m env name now
  | get name now =>
    simp only [exec]
    unfold ModelManager.get_model
    split <;> rfl
  | unload name =>
    simp only [exec]
    unfold ModelManager.unload_model
    split <;> rfl
  | clear => rfl

theorem CacheInv_exec (m : ModelManager) (o : Op) (h : CacheInv m) :
    CacheInv (exec m o) := by
  obtain ⟨h0, hnd, hlen⟩ := h
  cases o with
  | clear =>
    refine ⟨h0, ?_, ?_⟩
    · simp [exec, ModelManager.cleanup, keys]
    · simpa [exec, ModelManager.cleanup] using h0
  | unload name =>
    by_cases hmem : (lookup m.loaded_models name).isSome = true
    · have heq : exec m (.unload name) =
          { m with loaded_models := dictDelete m.loaded_models name } := by
        simp [exec, ModelManager.unload_model, hmem]
      rw [heq]
      refine ⟨h0, nodup_keys_dictDelete _ _ hnd, ?_⟩
      have h2 := length_dictDelete_le m.loaded_models name
      show ((dictDelete m.loaded_models name).length : Int) ≤ m.cache_size
      omega
    · have heq : exec m (.unload name) = m := by
        simp [exec, ModelManager.unload_model, hmem]
      rw [heq]
      exact ⟨h0, hnd, hlen⟩
  | get name now =>
    cases hl : lookup m.loaded_models name with
    | none =>
      have heq : exec m (.get name now) = m := by
        simp [exec, get_model_absent m name now hl]
      rw [heq]
      exact ⟨h0, hnd, hlen⟩
    | some info =>
      have hkey : name ∈ keys m.loaded_models := by
        rw [← lookup_isSome_iff]
        simp [hl]
      have heq : exec m (.get name now) =
          { m with loaded_models := dictInsert m.loaded_models name (bumped info now) } := by
        simp [exec, get_model_present m name now info hl]
      rw [heq]
      refine ⟨h0, ?_, ?_⟩
      · show (keys (dictInsert m.loaded_models name (bumped info now))).Nodup
        rw [keys_dictInsert_present _ _ _ hkey]
        exact hnd
      · have h3 := length_dictInsert_present m.loaded_models name (bumped info now) hkey
        show ((dictInsert m.loaded_models name (bumped info now)).length : Int) ≤ m.cache_size
        omega
  | load env name now =>
    rcases load_model_cases m env name now with heq | ⟨habs, info, _, _, heq⟩
    · rw [show exec m (.load env name now) = (m.load_model env name now).1 from rfl, heq]
      exact ⟨h0, hnd, hlen⟩
    · rw [show exec m (.load env name now) = (m.load_model env name now).1 from rfl, heq]
      have hname : name ∉ keys m.loaded_models := (lookup_eq_none_iff _ _).mp habs
      have hins : dictInsert m.loaded_models name info =
          m.loaded_models ++ [(name, info)] := dictInsert_absent _ _ _ hname
      have hnd2 : (keys (dictInsert m.loaded_models name info)).Nodup := by
        rw [hins]
        simp only [keys, List.map_append, List.map_cons, List.map_nil]
        rw [List.nodup_append]
        refine ⟨hnd, List.nodup_singleton name, ?_⟩
        intro a ha hb
        simp only [List.mem_singleton] at hb
        subst hb
        exact hname ha
      exact ⟨h0, manage_cache_list_keys_nodup _ _ hnd2, manage_cache_list_le _ _ hnd2 h0⟩

theorem run_cache_size (m : ModelManager) (ops : List Op) :
    (run m ops).cache_size = m.cache_size := by
  induction ops generalizing m with
  | nil => rfl
  | cons o rest ih =>
    show (run (exec m o) rest).cache_size = m.cache_size
    rw [ih (exec m o), exec_cache_size]

theorem run_CacheInv (m : ModelManager) (ops : List Op) (h : CacheInv m) :
    CacheInv (run m ops) := by
  induction ops generalizing m with
  | nil => exact h
  | cons o rest ih => exact ih _ (CacheInv_exec m o h)

theorem init_CacheInv (p : String) (c : Int) (hc : 0 ≤ c) :
    CacheInv (ModelManager.init p c) :=
  ⟨hc, by simp [ModelManager.init, keys], by simpa [ModelManager.init] using hc⟩

theorem nodup_keys_dictInsert_absent (l : List (String × ModelInfo)) (k : String)
    (v : ModelInfo) (hnd : (keys l).Nodup) (hk : k ∉ keys l) :
    (keys (dictInsert l k v)).Nodup := by
  rw [dictInsert_absent l k v hk]
  simp only [keys, List.map_append, List.map_cons, List.map_nil]
  rw [List.nodup_append]
  refine ⟨hnd, List.nodup_singleton k, ?_⟩
  intro a ha hb
  simp only [List.mem_singleton] at hb
  subst hb
  exact hk ha

/-- C1: Capacity invariant: starting from a cache constructed with
`max_size ≥ 1`, after any sequence of Load, Get, Unload and Clear calls,
a completing Load leaves at most `max_size` resident records (the eviction
pass at the end of a successful Load restores the bound before it
returns). -/
theorem c1_capacity_invariant (p : String) (n : Int) (ops : List Op) (env : Env)
    (name : String) (now : Nat) (hn : 1 ≤ n) :
    ((((run (ModelManager.init p n) ops).load_model env name now).1).loaded_models.length : Int) ≤ n := by
  have hinv : CacheInv (run (ModelManager.init p n) ops) :=
    run_CacheInv _ ops (init_CacheInv p n (by omega))
  obtain ⟨h0, hnd, hlen⟩ := hinv
  have hcs : (run (ModelManager.init p n) ops).cache_size = n := by
    rw [run_cache_size]
    rfl
  rcases load_model_cases (run (ModelManager.init p n) ops) env name now with
    h | ⟨habs, info, _, _, h⟩
  · rw [h]
    omega
  · rw [h]
    have hname : name ∉ keys (run (ModelManager.init p n) ops).loaded_models :=
      (lookup_eq_none_iff _ _).mp habs
    have hnd2 := nodup_keys_dictInsert_absent
      (run (ModelManager.init p n) ops).loaded_models name info hnd hname
    have h2 := manage_cache_list_le (run (ModelManager.init p n) ops).cache_size
      (dictInsert (run (ModelManager.init p n) ops).loaded_models name info) hnd2 h0
    show ((manage_cache_list (run (ModelManager.init p n) ops).cache_size
      (dictInsert (run (ModelManager.init p n) ops).loaded_models name info)).length : Int) ≤ n
    omega

/-- Witness for C1: capacity 1, one prior load, then a further load;
the resident count stays at most 1. -/
theorem c1_capacity_invariant_witness :
    1 ≤ (1 : Int) ∧
    ((((run (ModelManager.init "models" 1) [Op.load envA "a" 1]).load_model envA "b" 2).1).loaded_models.length : Int) ≤ 1 :=
  ⟨by decide, c1_capacity_invariant "models" 1 [Op.load envA "a" 1] envA "b" 2 (by decide)⟩

/-- C3: Load failure atomicity: for an identifier not resident, a missing
artifact file (NotFound) or a failing deserialization (CorruptArtifact)
makes Load return false with the mapping exactly as before the call. -/
theorem c3_load_failure_atomicity (m : ModelManager) (env : Env) (name : String)
    (now : Nat)
    (habs : lookup m.loaded_models name = none)
    (hfail : env.fileExists name = false ∨ env.deserialize name = none) :
    m.load_model env name now = (m, false) := by
  rcases hfail with h | h
  · exact load_model_fail m env name now habs (Or.inl h)
  · exact load_model_fail m env name now habs (Or.inr (Or.inl h))

/-- Witness for C3: a corrupt artifact load against a one-entry cache
fails and leaves the whole manager state unchanged. -/
theorem c3_load_failure_atomicity_witness :
    lookup (run (ModelManager.init "models" 3) [Op.load envA "a" 1]).loaded_models "x" = none ∧
    (run (ModelManager.init "models" 3) [Op.load envA "a" 1]).load_model envCorrupt "x" 2 =
      (run (ModelManager.init "models" 3) [Op.load envA "a" 1], false) :=
  ⟨by decide,
    c3_load_failure_atomicity (run (ModelManager.init "models" 3) [Op.load envA "a" 1])
      envCorrupt "x" 2 (by decide) (Or.inr (by decide))⟩

/-- C4: Load idempotency: for a resident identifier, Load returns true with
the entire state unchanged, and the result does not depend on the backing
environment or the time — no store read or deserialization occurs. -/
theorem c4_load_idempotent (m : ModelManager) (env env' : Env) (name : String)
    (now now' : Nat)
    (h : (lookup m.loaded_models name).isSome = true) :
    m.load_model env name now = (m, true) ∧
    m.load_model env name now = m.load_model env' name now' := by
  constructor
  · exact load_model_present m env name now h
  · rw [load_model_present m env name now h, load_model_present m env' name now' h]

/-- Witness for C4: re-loading the resident "a" returns true and is
insensitive to a broken backing store and to the clock. -/
theorem c4_load_idempotent_witness :
    (lookup (run (ModelManager.init "models" 2) [Op.load envA "a" 1]).loaded_models "a").isSome = true ∧
    ((run (ModelManager.init "models" 2) [Op.load envA "a" 1]).load_model envNoFile "a" 5 =
      (run (ModelManager.init "models" 2) [Op.load envA "a" 1], true) ∧
     (run (ModelManager.init "models" 2) [Op.load envA "a" 1]).load_model envNoFile "a" 5 =
      (run (ModelManager.init "models" 2) [Op.load envA "a" 1]).load_model envCorrupt "a" 9) :=
  ⟨by decide,
    c4_load_idempotent (run (ModelManager.init "models" 2) [Op.load envA "a" 1])
      envNoFile envCorrupt "a" 5 9 (by decide)⟩

/-- C5: Batched eviction exactness: with `max_size ≥ 1` and distinct keys,
the eviction pass removes nothing when the count is within bound; when the
count exceeds the bound it removes exactly the surplus in one pass (final
count equals capacity), keeps only entries of the original mapping, and
every removed record's `last_accessed` is at most every kept one's. -/
theorem c5_batched_eviction (c : Int) (l : List (String × ModelInfo))
    (hc : 1 ≤ c) (hnd : (keys l).Nodup) :
    ((l.length : Int) ≤ c → manage_cache_list c l = l) ∧
    (c < (l.length : Int) →
      ((manage_cache_list c l).length : Int) = c ∧
      (∀ q ∈ manage_cache_list c l, q ∈ l) ∧
      (∀ p ∈ l, p ∉ manage_cache_list c l →
        ∀ q ∈ manage_cache_list c l, p.2.last_accessed ≤ q.2.last_accessed)) := by
  refine ⟨fun h => manage_cache_list_of_le c l h, fun h => ?_⟩
  exact ⟨manage_cache_list_length c l hnd (by omega) h,
    fun q hq => manage_cache_list_subset c l q hq,
    manage_cache_list_lru c l hnd h⟩

/-- Witness for C5: capacity 1, two residents; the pass keeps exactly one
record. -/
theorem c5_batched_eviction_witness :
    1 ≤ (1 : Int) ∧
    ((manage_cache_list 1 [("a", mkInfo 3), ("b", mkInfo 1)]).length : Int) = 1 :=
  ⟨by decide,
    ((c5_batched_eviction 1 [("a", mkInfo 3), ("b", mkInfo 1)] (by decide)
      (by decide)).2 (by decide)).1⟩

/-- C6 counterexample: capacity 2; "b" then "a" are loaded with equal
timestamps, then "c" forces one eviction among the tied pair. The code
evicts "b", the first-inserted tied record, so "a" — the one ascending
identifier order would select for removal — stays resident. -/
theorem c6_tiebreak_counterexample :
    keys (run (ModelManager.init "models" 2) tieOps).loaded_models = ["a", "c"] ∧
    "b" ∉ keys (run (ModelManager.init "models" 2) tieOps).loaded_models ∧
    "a" ∈ keys (run (ModelManager.init "models" 2) tieOps).loaded_models := by
  decide

theorem sublist_pair_antisymm {a b : String × ModelInfo} :
    ∀ {l : List (String × ModelInfo)}, l.Nodup → List.Sublist [a, b] l → List.Sublist [b, a] l → a = b := by
  intro l
  induction l with
  | nil =>
    intro _ h _
    cases h
  | cons x l' ih =>
    intro hnd h1 h2
    cases h1 with
    | cons _ h1' =>
      cases h2 with
      | cons _ h2' => exact ih (List.nodup_cons.mp hnd).2 h1' h2'
      | cons₂ _ h2' =>
        exfalso
        have hmem : b ∈ l' := h1'.subset (by simp)
        exact (List.nodup_cons.mp hnd).1 hmem
    | cons₂ _ h1' =>
      cases h2 with
      | cons _ h2' =>
        exfalso
        have hmem : a ∈ l' := h2'.subset (by simp)
        exact (List.nodup_cons.mp hnd).1 hmem
      | cons₂ _ h2' => rfl

/-- C6 amended: within a tie on `last_accessed`, eviction follows mapping
insertion order (Python's stable sort over dict iteration order): for
every eviction pass, whenever record `p` precedes record `q` in the
mapping, the two share the same `last_accessed` value, and the pass evicts
`q`, it also evicts `p` — the earlier-inserted tied record is always
selected first, wherever the tied group sits and whatever the surplus,
not the one that ascending identifier order would pick. -/
theorem c6_amended_insertion_order (c : Int) (l : List (String × ModelInfo))
    (p q : String × ModelInfo)
    (hnd : (keys l).Nodup)
    (hsub : List.Sublist [p, q] l)
    (htie : p.2.last_accessed = q.2.last_accessed)
    (hq : q ∉ manage_cache_list c l) :
    p ∉ manage_cache_list c l := by
  have hql : q ∈ l := hsub.subset (by simp)
  have hpl : p ∈ l := hsub.subset (by simp)
  by_cases hle : (l.length : Int) ≤ c
  · exfalso
    rw [manage_cache_list_of_le c l hle] at hq
    exact hq hql
  · intro hpres
    rw [manage_cache_list_gt c l hle] at hq hpres
    have hq1 : q.1 ∈ ((List.insertionSort laLE l).take
        ((l.length : Int) - c).toNat).map Prod.fst := by
      by_contra hcon
      exact hq (mem_foldl_dictDelete _ l q hql hcon)
    obtain ⟨q', hq', hq'1⟩ := List.mem_map.mp hq1
    have hq'l : q' ∈ l := (List.perm_insertionSort laLE l).subset
      ((List.take_sublist _ _).subset hq')
    have hqq : q' = q := by
      have h1 : (q.1, q'.2) ∈ l := by
        rw [← hq'1]
        simpa using hq'l
      have h2 : (q.1, q.2) ∈ l := by simpa using hql
      have h3 := key_unique l q.1 q'.2 q.2 hnd h1 h2
      calc q' = (q'.1, q'.2) := by simp
        _ = (q.1, q.2) := by rw [hq'1, h3]
        _ = q := by simp
    rw [hqq] at hq'
    have hstab : List.Sublist [p, q] (List.insertionSort laLE l) :=
      List.pair_sublist_insertionSort (by simp [laLE, htie]) hsub
    by_cases hptake : p ∈ (List.insertionSort laLE l).take ((l.length : Int) - c).toNat
    · have hp1 : p.1 ∈ ((List.insertionSort laLE l).take
          ((l.length : Int) - c).toNat).map Prod.fst :=
        List.mem_map.mpr ⟨p, hptake, rfl⟩
      exact not_mem_keys_foldl_dictDelete _ l p.1 hnd hp1
        (List.mem_map.mpr ⟨p, hpres, rfl⟩)
    · have hpsorted : p ∈ List.insertionSort laLE l :=
        (List.perm_insertionSort laLE l).mem_iff.mpr hpl
      have hpdrop : p ∈ (List.insertionSort laLE l).drop ((l.length : Int) - c).toNat := by
        have hsplit := List.take_append_drop ((l.length : Int) - c).toNat
          (List.insertionSort laLE l)
        rw [← hsplit] at hpsorted
        rcases List.mem_append.mp hpsorted with h | h
        · exact absurd h hptake
        · exact h
      have hqp : List.Sublist [q, p] (List.insertionSort laLE l) := by
        have h1 : List.Sublist [q] ((List.insertionSort laLE l).take ((l.length : Int) - c).toNat) :=
          List.singleton_sublist.mpr hq'
        have h2 : List.Sublist [p] ((List.insertionSort laLE l).drop ((l.length : Int) - c).toNat) :=
          List.singleton_sublist.mpr hpdrop
        have h3 := h1.append h2
        rwa [List.take_append_drop] at h3
      have hndsorted : (List.insertionSort laLE l).Nodup := by
        have hlnd : l.Nodup := List.Nodup.of_map Prod.fst (by simpa [keys] using hnd)
        exact ((List.perm_insertionSort laLE l).nodup_iff).mpr hlnd
      have hpq : p = q := sublist_pair_antisymm hndsorted hstab hqp
      rw [hpq] at hptake
      exact hptake hq'

/-- Witness for C6's amended statement: capacity 1 with the tied pair
"b" (inserted first) and "a"; the pass evicts both tied records and in
particular the earlier-inserted "b" once "a" is evicted. -/
theorem c6_amended_insertion_order_witness :
    ((keys [("b", mkInfo 5), ("a", mkInfo 5), ("c", mkInfo 9)]).Nodup ∧
      List.Sublist [("b", mkInfo 5), ("a", mkInfo 5)]
        [("b", mkInfo 5), ("a", mkInfo 5), ("c", mkInfo 9)] ∧
      ("b", mkInfo 5).2.last_accessed = ("a", mkInfo 5).2.last_accessed ∧
      ("a", mkInfo 5) ∉ manage_cache_list 1
        [("b", mkInfo 5), ("a", mkInfo 5), ("c", mkInfo 9)]) ∧
    ("b", mkInfo 5) ∉ manage_cache_list 1
      [("b", mkInfo 5), ("a", mkInfo 5), ("c", mkInfo 9)] :=
  ⟨⟨by decide, by decide, by decide, by decide⟩,
    c6_amended_insertion_order 1 [("b", mkInfo 5), ("a", mkInfo 5), ("c", mkInfo 9)]
      ("b", mkInfo 5) ("a", mkInfo 5) (by decide) (by decide) (by decide) (by decide)⟩

/-- C8 counterexample: the constructor accepts non-positive capacities and
produces fully-formed instances, so no `CapacityMisconfigured` failure
exists and a cache with `max_size ≤ 0` can be produced. -/
theorem c8_capacity_counterexample :
    (ModelManager.init "models" 0).cache_size = 0 ∧
    (ModelManager.init "models" (-5)).cache_size = -5 ∧
    (ModelManager.init "models" 0).loaded_models = [] :=
  ⟨rfl, rfl, rfl⟩

/-- C8 amended: construction performs no validation: any integer
`cache_size` is accepted and stored unchanged, the instance starts with an
empty mapping, and no error path exists at construction. -/
theorem c8_amended_no_validation (p : String) (c : Int) :
    (ModelManager.init p c).model_path = p ∧
    (ModelManager.init p c).cache_size = c ∧
    (ModelManager.init p c).loaded_models = [] :=
  ⟨rfl, rfl, rfl⟩

/-- C9 counterexample: the stats mutation performed by a `get_model` hit
happens at lock depth 0 — `get_model` is not wrapped in
`async with self._lock`. -/
theorem c9_lock_counterexample : underLock (get_model_events true) = false := by
  decide

/-- C9 amended: Load, Unload and Clear (with the eviction pass running
inside Load's critical section) mutate state only while holding the
instance lock, but Get mutates `access_count`/`last_accessed` without
acquiring the lock. -/
theorem c9_amended_lock_discipline :
    (∀ s : Bool, underLock (load_model_events s) = true) ∧
    (∀ q : Bool, underLock (unload_model_events q) = true) ∧
    underLock cleanup_events = true ∧
    underLock (get_model_events true) = false := by
  decide

/-- C10: a present-but-unparsable sidecar metadata file aborts the whole
load: even though the artifact file exists and its bytes deserialize,
Load returns false and the mapping is unchanged. -/
theorem c10_bad_metadata_aborts (m : ModelManager) (env : Env) (name : String)
    (now : Nat)
    (habs : lookup m.loaded_models name = none)
    (hfe : env.fileExists name = true)
    (hdes : ∃ h, env.deserialize name = some h)
    (hme : env.metaExists name = true)
    (hbad : env.parseMeta name = none) :
    m.load_model env name now = (m, false) :=
  load_model_fail m env name now habs (Or.inr (Or.inr ⟨hme, hbad⟩))

/-- Witness for C10: `envBadMeta` deserializes every artifact but its
sidecar files fail to parse; the load fails leaving the state unchanged. -/
theorem c10_bad_metadata_aborts_witness :
    lookup (ModelManager.init "models" 2).loaded_models "x" = none ∧
    envBadMeta.fileExists "x" = true ∧
    envBadMeta.metaExists "x" = true ∧
    envBadMeta.parseMeta "x" = none ∧
    (ModelManager.init "models" 2).load_model envBadMeta "x" 7 =
      (ModelManager.init "models" 2, false) :=
  ⟨by decide, by decide, by decide, by decide,
    c10_bad_metadata_aborts (ModelManager.init "models" 2) envBadMeta "x" 7
      (by decide) (by decide) ⟨0, rfl⟩ (by decide) (by decide)⟩

/-- C2: LRU correctness: from a full cache (count = capacity, distinct
keys) whose record `(kmin, rmin)` has strictly the smallest
`last_accessed` (also smaller than the new load's timestamp), a successful
Load of an absent identifier returns true and evicts exactly that
least-recently-accessed record: the resulting key sequence is the old one
with `kmin` removed and the new identifier appended, so the
most-recently-accessed record is never the one evicted. -/
theorem c2_lru_eviction (m : ModelManager) (env : Env) (name kmin : String)
    (rmin : ModelInfo) (now : Nat)
    (hnd : (keys m.loaded_models).Nodup)
    (hfull : (m.loaded_models.length : Int) = m.cache_size)
    (habs : lookup m.loaded_models name = none)
    (hfe : env.fileExists name = true)
    (hdes : ∃ h, env.deserialize name = some h)
    (hmeta : env.metaExists name = false ∨ ∃ d, env.parseMeta name = some d)
    (hmem : (kmin, rmin) ∈ m.loaded_models)
    (hstrict : ∀ p ∈ m.loaded_models, p.1 ≠ kmin → rmin.last_accessed < p.2.last_accessed)
    (hnow : rmin.last_accessed < now) :
    (m.load_model env name now).2 = true ∧
    keys (m.load_model env name now).1.loaded_models =
      (keys m.loaded_models).erase kmin ++ [name] := by
  obtain ⟨model, hdes⟩ := hdes
  have hmd : ∃ md, (if env.metaExists name then env.parseMeta name
      else some MetaDoc.empty) = some md := by
    cases hme : env.metaExists name with
    | false => exact ⟨MetaDoc.empty, by simp [hme]⟩
    | true =>
      rcases hmeta with h | ⟨d, hd⟩
      · rw [hme] at h
        cases h
      · exact ⟨d, by simp [hme, hd]⟩
  obtain ⟨md, hmd⟩ := hmd
  have hload := load_model_success m env name now md model habs hfe hdes hmd
  have hname : name ∉ keys m.loaded_models := (lookup_eq_none_iff _ _).mp habs
  have hins : dictInsert m.loaded_models name (loadedInfo model now md) =
      m.loaded_models ++ [(name, loadedInfo model now md)] :=
    dictInsert_absent _ _ _ hname
  have hlen2 : (m.loaded_models ++ [(name, loadedInfo model now md)]).length =
      m.loaded_models.length + 1 := by simp
  have hgt : ¬ (((m.loaded_models ++ [(name, loadedInfo model now md)]).length : Int) ≤
      m.cache_size) := by omega
  have hperm := List.perm_insertionSort laLE
    (m.loaded_models ++ [(name, loadedInfo model now md)])
  have hsorted := List.sorted_insertionSort laLE
    (m.loaded_models ++ [(name, loadedInfo model now md)])
  have hkm : (kmin, rmin) ∈ m.loaded_models ++ [(name, loadedInfo model now md)] :=
    List.mem_append.mpr (Or.inl hmem)
  cases hs : List.insertionSort laLE
      (m.loaded_models ++ [(name, loadedInfo model now md)]) with
  | nil =>
    exfalso
    have hle := hperm.length_eq
    rw [hs] at hle
    simp at hle
  | cons hd tl =>
    have hhd : hd ∈ m.loaded_models ++ [(name, loadedInfo model now md)] := by
      have h1 : hd ∈ List.insertionSort laLE
          (m.loaded_models ++ [(name, loadedInfo model now md)]) := by
        rw [hs]
        exact List.mem_cons_self _ _
      exact hperm.subset h1
    have hminle : ∀ y ∈ m.loaded_models ++ [(name, loadedInfo model now md)],
        laLE hd y := by
      intro y hy
      have hy2 : y ∈ hd :: tl := by
        rw [← hs]
        exact hperm.mem_iff.mpr hy
      rcases List.mem_cons.mp hy2 with h | h
      · rw [h]
        exact Nat.le_refl _
      · have hsc := hsorted
        rw [hs] at hsc
        exact (List.sorted_cons.mp hsc).1 y h
    have hhd_eq : hd = (kmin, rmin) := by
      rcases List.mem_append.mp hhd with h | h
      · by_cases hk : hd.1 = kmin
        · have h1 : (kmin, hd.2) ∈ m.loaded_models := by
            rw [← hk]
            simpa using h
          have h2 := key_unique m.loaded_models kmin hd.2 rmin hnd h1 hmem
          calc hd = (hd.1, hd.2) := by simp
            _ = (kmin, rmin) := by rw [hk, h2]
        · exfalso
          have hlt := hstrict hd h hk
          have hle := hminle (kmin, rmin) hkm
          simp only [laLE] at hle
          omega
      · exfalso
        simp only [List.mem_singleton] at h
        have hle := hminle (kmin, rmin) hkm
        rw [h] at hle
        simp only [laLE, loadedInfo] at hle
        omega
    have hkml : kmin ∈ keys m.loaded_models :=
      List.mem_map.mpr ⟨(kmin, rmin), hmem, rfl⟩
    have htn : ((((m.loaded_models ++ [(name, loadedInfo model now md)]).length : Int)) -
        m.cache_size).toNat = 1 := by omega
    constructor
    · rw [hload]
    · rw [hload]
      show keys (manage_cache_list m.cache_size
          (dictInsert m.loaded_models name (loadedInfo model now md))) =
        (keys m.loaded_models).erase kmin ++ [name]
      rw [hins, manage_cache_list_gt _ _ hgt, htn, hs]
      have htake : (hd :: tl).take 1 = [hd] := by simp
      rw [htake, hhd_eq]
      show keys (dictDelete (m.loaded_models ++ [(name, loadedInfo model now md)]) kmin) =
        (keys m.loaded_models).erase kmin ++ [name]
      rw [dictDelete_append_of_mem m.loaded_models [(name, loadedInfo model now md)] kmin hkml]
      simp only [keys, List.map_append, List.map_cons, List.map_nil]
      have hkd := keys_dictDelete m.loaded_models kmin
      simp only [keys] at hkd
      rw [hkd]

/-- Witness for C2, realizing the concrete scenario: capacity 2,
Load("a")@1, Load("b")@2, Get("a")@3, then Load("c")@4 succeeds, evicts
"b" (smallest last_accessed) and the resident keys become ["a", "c"]. -/
theorem c2_lru_eviction_witness :
    lookup (run (ModelManager.init "models" 2)
      [Op.load envA "a" 1, Op.load envA "b" 2, Op.get "a" 3]).loaded_models "c" = none ∧
    ("b", mkInfo 2) ∈ (run (ModelManager.init "models" 2)
      [Op.load envA "a" 1, Op.load envA "b" 2, Op.get "a" 3]).loaded_models ∧
    (((run (ModelManager.init "models" 2)
      [Op.load envA "a" 1, Op.load envA "b" 2, Op.get "a" 3]).load_model envA "c" 4).2 = true ∧
     keys ((run (ModelManager.init "models" 2)
      [Op.load envA "a" 1, Op.load envA "b" 2, Op.get "a" 3]).load_model envA "c" 4).1.loaded_models =
      (keys (run (ModelManager.init "models" 2)
        [Op.load envA "a" 1, Op.load envA "b" 2, Op.get "a" 3]).loaded_models).erase "b" ++ ["c"]) :=
  ⟨by decide, by decide,
    c2_lru_eviction (run (ModelManager.init "models" 2)
        [Op.load envA "a" 1, Op.load envA "b" 2, Op.get "a" 3])
      envA "c" "b" (mkInfo 2) 4
      (by decide) (by decide) (by decide) (by decide) ⟨0, rfl⟩ (Or.inl (by decide))
      (by decide) (by decide) (by decide)⟩

theorem getLastD_cons_nat (t d : Nat) (l : List Nat) :
    (t :: l).getLastD d = l.getLastD t := by
  cases l with
  | nil => rfl
  | cons u us => rfl

theorem run_gets_spec (name : String) (ts : List Nat) :
    ∀ (m : ModelManager) (info : ModelInfo), lookup m.loaded_models name = some info →
      ∃ info', lookup (run m (ts.map (Op.get name))).loaded_models name = some info' ∧
        info'.access_count = info.access_count + ts.length ∧
        info'.last_accessed = ts.getLastD info.last_accessed := by
  induction ts with
  | nil =>
    intro m info h
    exact ⟨info, h, by simp, by simp [List.getLastD]⟩
  | cons t ts' ih =>
    intro m info h
    have hstep : run m ((t :: ts').map (Op.get name)) =
        run { m with loaded_models := dictInsert m.loaded_models name (bumped info t) }
          (ts'.map (Op.get name)) := by
      simp only [List.map_cons]
      show run (exec m (Op.get name t)) (ts'.map (Op.get name)) = _
      rw [show exec m (Op.get name t) = (m.get_model name t).1 from rfl,
        get_model_present m name t info h]
    rw [hstep]
    have hlook : lookup (dictInsert m.loaded_models name (bumped info t)) name =
        some (bumped info t) := lookup_dictInsert _ _ _
    obtain ⟨info', h1, h2, h3⟩ :=
      ih { m with loaded_models := dictInsert m.loaded_models name (bumped info t) } (bumped info t) hlook
    refine ⟨info', h1, ?_, ?_⟩
    · rw [h2]
      simp only [bumped, List.length_cons]
      omega
    · rw [h3]
      show ts'.getLastD t = (t :: ts').getLastD info.last_accessed
      rw [getLastD_cons_nat]

/-- C7: Get updates stats: starting from a resident record with
`access_count = 0`, k successive Get hits at timestamps `ts` leave
`access_count = k` and `last_accessed` equal to the timestamp of the last
call; and Get on an absent identifier returns a plain `none` result with
the state unchanged, not an exception. -/
theorem c7_get_updates_stats (m : ModelManager) (name : String) (info : ModelInfo)
    (ts : List Nat)
    (hres : lookup m.loaded_models name = some info)
    (h0 : info.access_count = 0) :
    (∃ info', lookup (run m (ts.map (Op.get name))).loaded_models name = some info' ∧
        info'.access_count = ts.length ∧
        info'.last_accessed = ts.getLastD info.last_accessed) ∧
    (∀ (m₂ : ModelManager) (nm : String) (t : Nat),
        lookup m₂.loaded_models nm = none → m₂.get_model nm t = (m₂, none)) := by
  constructor
  · obtain ⟨info', h1, h2, h3⟩ := run_gets_spec name ts m info hres
    exact ⟨info', h1, by omega, h3⟩
  · intro m₂ nm t hn
    exact get_model_absent m₂ nm t hn

/-- Witness for C7: "a" is loaded at time 1 and hit twice, at times 5 and
9; the record then shows `access_count = 2` and `last_accessed = 9`. -/
theorem c7_get_updates_stats_witness :
    lookup (run (ModelManager.init "m" 3) [Op.load envA "a" 1]).loaded_models "a" =
      some (mkInfo 1) ∧
    ((∃ info', lookup (run (run (ModelManager.init "m" 3) [Op.load envA "a" 1])
        ([5, 9].map (Op.get "a"))).loaded_models "a" = some info' ∧
        info'.access_count = [5, 9].length ∧
        info'.last_accessed = [5, 9].getLastD (mkInfo 1).last_accessed) ∧
     (∀ (m₂ : ModelManager) (nm : String) (t : Nat),
        lookup m₂.loaded_models nm = none → m₂.get_model nm t = (m₂, none))) :=
  ⟨by decide,
    c7_get_updates_stats (run (ModelManager.init "m" 3) [Op.load envA "a" 1])
      "a" (mkInfo 1) [5, 9] (by decide) (by decide)⟩
